import Mathlib

/-!
Verification of the ZKRun guest program (`src/methods/guest/src/main.rs`).

The development shallowly embeds the guest's verification pipeline:
machine integers (`u64`, `u32`, `i128`, `u128`) are modelled as `Nat` / `Int`
with Rust's truncating division rendered as `Int.tdiv`; the argument ranges
arising in the program are small enough that no `i128`/`u128` operation in the
embedded code paths can wrap, so the unbounded model agrees with the machine
semantics.  The third-party cryptographic primitives (SHA-256, Keccak-256,
secp256k1 ECDSA parsing and verification) are not part of this repository; the
pipeline is parameterised over them as narrow capability interfaces, exactly as
the design prescribes, with only their output lengths axiomatised as structure
fields.
-/

namespace ZKRun

/-- Constant `Q = 1 <<< 32`, the Q32.32 fixed-point scale from the source. -/
def Q : Int := 4294967296

/-- Constant `EARTH_RADIUS_M = 6_371_000` meters. -/
def EARTH_RADIUS_M : Int := 6371000

/-- The Q32.32 constant for π: `(core::f64::consts::PI * (Q as f64)) as i128`.
The `f64` value of π is `7074237752028440 / 2^51`; multiplying by the power of
two `2^32` is exact in `f64`, and the cast truncates toward zero, so the
constant is `⌊π_f64 · 2^32⌋ = 13493037704`. -/
def pi_q32 : Int := 13493037704

/-- The Q32.32 constant for 2π: `(core::f64::consts::PI * 2.0 * (Q as f64)) as i128`,
i.e. `⌊π_f64 · 2^33⌋ = 26986075409` (one more than `2 * pi_q32`). -/
def two_pi_q32 : Int := 26986075409

/-- Function `deg_to_rad_q32`: converts micro-degrees to Q32.32 radians,
`((deg_micro * Q) / 1_000_000 * pi_q32) / (180 * Q)` with truncating division. -/
def deg_to_rad_q32 (deg_micro : Int) : Int :=
  Int.tdiv (Int.tdiv (deg_micro * Q) 1000000 * pi_q32) (180 * Q)

/-- First loop of `wrap_pi_q32`, `while x > pi { x -= two_pi; }`, with explicit
structural fuel (each `while` iteration consumes one unit; with the fuel
supplied by `wrapFuel` below the loop always reaches its exit condition before
the fuel runs out, see `wrapDown_eq_go`). -/
def wrapDownGo : Nat → Int → Int
  | 0, x => x
  | fuel + 1, x => if x > pi_q32 then wrapDownGo fuel (x - two_pi_q32) else x

/-- Second loop of `wrap_pi_q32`, `while x < -pi { x += two_pi; }`, with
explicit structural fuel. -/
def wrapUpGo : Nat → Int → Int
  | 0, x => x
  | fuel + 1, x => if x < -pi_q32 then wrapUpGo fuel (x + two_pi_q32) else x

/-- Fuel that strictly dominates the iteration count of either wrapping loop
started at `x`: each iteration moves `x` by `two_pi_q32`. -/
def wrapFuel (x : Int) : Nat := x.natAbs / two_pi_q32.toNat + 1

/-- Function `wrap_pi_q32`: reduce into `[-π, π]` by the two sequential loops. -/
def wrap_pi_q32 (x : Int) : Int :=
  let y := wrapDownGo (wrapFuel x) x
  wrapUpGo (wrapFuel y) y

/-- The first loop of `wrap_pi_q32` written exactly as the source's `while`
(well-founded recursion); proved below to agree with the fuelled form. -/
def wrapDown (x : Int) : Int :=
  if x > pi_q32 then wrapDown (x - two_pi_q32) else x
termination_by (x - pi_q32).toNat
decreasing_by
  simp only [pi_q32, two_pi_q32] at *
  omega

/-- The second loop of `wrap_pi_q32` written exactly as the source's `while`. -/
def wrapUp (x : Int) : Int :=
  if x < -pi_q32 then wrapUp (x + two_pi_q32) else x
termination_by (-pi_q32 - x).toNat
decreasing_by
  simp only [pi_q32, two_pi_q32] at *
  omega

/-- Function `q32_mul(a, b) = (a * b) / Q` with truncating division. -/
def q32_mul (a b : Int) : Int := Int.tdiv (a * b) Q

/-- Function `q32_div(a, b) = (a * Q) / b` with truncating division. -/
def q32_div (a b : Int) : Int := Int.tdiv (a * Q) b

/-- Function `q32_cos`: the 4-term cosine polynomial `1 - x²/2 + x⁴/24 - x⁶/720`
evaluated after wrapping the argument to `[-π, π]`. -/
def q32_cos (x : Int) : Int :=
  let x := wrap_pi_q32 x
  let x2 := q32_mul x x
  let x4 := q32_mul x2 x2
  let x6 := q32_mul x4 x2
  let term1 := Q
  let term2 := Int.tdiv (-x2) 2
  let term3 := Int.tdiv x4 24
  let term4 := Int.tdiv (-x6) 720
  term1 + term2 + term3 + term4

/-- The pre-loop of `isqrt_u128`: `while bit > x { bit >>= 2; }`.
Structural fuel replaces the `while`; starting from `bit = 1 <<< 126 = 4^63`
the loop runs at most 63 times, so any fuel `≥ 63` computes the loop's exact
result (proved below via the characterisation `findBit_spec`). -/
def findBit : Nat → Nat → Nat → Nat
  | 0, bit, _ => bit
  | fuel + 1, bit, x => if bit > x then findBit fuel (bit / 4) x else bit

/-- The main loop of `isqrt_u128`:
`while bit != 0 { if n >= r + bit { n -= r + bit; r = (r >> 1) + bit; } else { r >>= 1; } bit >>= 2; }`.
Structural fuel replaces the `while`; the initial `bit` is a power of four
`≤ 4^63`, so the loop runs at most 64 times and any fuel `≥ 64` computes its
exact result (proved below). -/
def sqrtLoop : Nat → Nat → Nat → Nat → Nat
  | 0, _, _, r => r
  | fuel + 1, bit, n, r =>
    if bit = 0 then r
    else if r + bit ≤ n then sqrtLoop fuel (bit / 4) (n - (r + bit)) (r / 2 + bit)
    else sqrtLoop fuel (bit / 4) n (r / 2)

/-- Body of `isqrt_u128` with explicit fuel for its two loops. -/
def isqrtFuel (fuel x : Nat) : Nat :=
  if x = 0 then 0 else sqrtLoop fuel (findBit fuel (2 ^ 126) x) x 0

/-- Function `isqrt_u128(x)`: binary-method integer square root.  Fuel `128` (the bit
width of the Rust operand type) strictly dominates the loop counts of the
source's two `while` loops, so this equals the source function on every
`u128` value. -/
def isqrt_u128 (x : Nat) : Nat := isqrtFuel 128 x

/-- Function `distance_segment_meters`: equirectangular approximation
`x = Δλ·cos(lat_avg)`, `y = Δφ`, `d = R · sqrt(x² + y²)`, all in Q32.32 with
truncating division, negative sums clamped to zero before the square root,
and the final meters value truncated into `u64`. -/
def distance_segment_meters (lat1 lon1 lat2 lon2 : Int) : Nat :=
  let phi1 := deg_to_rad_q32 lat1
  let phi2 := deg_to_rad_q32 lat2
  let lam1 := deg_to_rad_q32 lon1
  let lam2 := deg_to_rad_q32 lon2
  let dphi := phi2 - phi1
  let dlam := lam2 - lam1
  let lat_avg := Int.tdiv (phi1 + phi2) 2
  let cos_lat := q32_cos lat_avg
  let x := q32_mul dlam cos_lat
  let y := dphi
  let x2 := q32_mul x x
  let y2 := q32_mul y y
  let sum := x2 + y2
  let sum_u : Nat := if sum < 0 then 0 else sum.toNat
  let root_q32 := isqrt_u128 (sum_u * Q.toNat)
  let meters := Int.tdiv (EARTH_RADIUS_M * (root_q32 : Int)) Q
  if meters < 0 then 0 else meters.toNat

/-- A decoded GPS sample: `t : u64` seconds, coordinates in micro-degrees
(`i32`). -/
structure Sample where
  t : Nat
  lat_microdeg : Int
  lon_microdeg : Int
deriving DecidableEq

/-- The decoded `RunInput` record (CBOR field tags 0–7).  Byte strings are
lists of byte values. -/
structure RunInput where
  gps : List Sample
  start_time : Nat
  end_time : Nat
  max_elapsed_sec : Nat
  max_speed_mps : Nat
  blob : List Nat
  sig : List Nat
  pubkey : List Nat
deriving DecidableEq

/-- The cryptographic capabilities the guest links against (SHA-256,
Keccak-256, and secp256k1 ECDSA parsing/verification from third-party
crates).  They are modelled as narrow interfaces; the only facts the
pipeline relies on are the 32-byte digest lengths. -/
structure Crypto where
  sha256 : List Nat → List Nat
  keccak256 : List Nat → List Nat
  sigParse : List Nat → Bool
  keyParse : List Nat → Bool
  ecdsaVerify : List Nat → List Nat → List Nat → Bool
  sha256_len : ∀ b, (sha256 b).length = 32
  keccak256_len : ∀ b, (keccak256 b).length = 32

/-- Function `verify_signature(blob, sig, pubkey)`: length checks, SHA-256 digest,
parse `(r, s)` from the first 64 signature bytes, parse the SEC1 key, verify,
then derive the address as the last 20 bytes of Keccak-256 of `pubkey[1..]`. -/
def verify_signature (C : Crypto) (blob sig pubkey : List Nat) : Option (List Nat) :=
  if sig.length ≠ 65 then none
  else if pubkey.length ≠ 65 then none
  else
    let digest := C.sha256 blob
    let sig64 := sig.take 64
    if ¬ C.sigParse sig64 then none
    else if ¬ C.keyParse pubkey then none
    else if ¬ C.ecdsaVerify digest sig64 pubkey then none
    else
      let out := C.keccak256 (pubkey.drop 1)
      some (out.drop 12)

/-- Saturating addition on `u64` (`u64::saturating_add`). -/
def satAdd64 (a b : Nat) : Nat := min (a + b) (2 ^ 64 - 1)

/-- The segment distance between two samples. -/
def segDist (a b : Sample) : Nat :=
  distance_segment_meters a.lat_microdeg a.lon_microdeg b.lat_microdeg b.lon_microdeg

/-- The sample-walk loop of `main` (`for w in run_in.gps.windows(2)`), carrying
the previous sample, the saturating distance accumulator, and returning
`(total_distance_m, last_t)` on success or `none` at the first violated
check, exactly in source order: time-order check, distance accumulation,
(dead) `dt == 0` check, speed check. -/
def walk (maxSpeed : Nat) : Sample → List Sample → Nat → Option (Nat × Nat)
  | a, [], total => some (total, a.t)
  | a, b :: rest, total =>
    if ¬ (b.t > a.t) then none
    else
      let dt := b.t - a.t
      let d := segDist a b
      let total' := satAdd64 total d
      if dt = 0 then none
      else if d / dt > maxSpeed then none
      else walk maxSpeed b rest total'

/-- Big-endian bytes of a `u32` (`u32::to_be_bytes`). -/
def beBytes4 (n : Nat) : List Nat :=
  [n / 16777216 % 256, n / 65536 % 256, n / 256 % 256, n % 256]

/-- The body of `main` after input decoding: every early `return` after an
`env::commit_slice(&[0u8])` becomes the journal `[0]`, and the accepting path
builds `[passed=1][elapsed u32 BE][blob_hash 32][signer_addr 20]`.  The
argument is the result of CBOR decoding (`none` = decode failure). -/
def runMain (C : Crypto) (decoded : Option RunInput) : List Nat :=
  match decoded with
  | none => [0]
  | some r =>
    if r.gps.length < 2 then [0]
    else if ¬ (r.start_time ≤ r.end_time) then [0]
    else
      match verify_signature C r.blob r.sig r.pubkey with
      | none => [0]
      | some signer_addr =>
        let blob_hash := C.sha256 r.blob
        match r.gps with
        | [] => [0]
        | g0 :: rest =>
          match walk r.max_speed_mps g0 rest 0 with
          | none => [0]
          | some (total_distance_m, last_t) =>
            let elapsed := last_t - g0.t
            if elapsed > r.max_elapsed_sec then [0]
            else if total_distance_m < 5000 then [0]
            else
              let elapsed_u32 := if elapsed > 4294967295 then 4294967295 else elapsed
              1 :: (beBytes4 elapsed_u32 ++ blob_hash ++ signer_addr)

/-- The whole guest invocation as a function of the raw input buffer, given a
decoder capability for the CBOR layer. -/
def pipeline (C : Crypto) (decode : List Nat → Option RunInput) (input : List Nat) :
    List Nat :=
  runMain C (decode input)

/-- Spec-side predicate: consecutive timestamps strictly increase along the
sample chain starting at `a`. -/
def chainInc : Sample → List Sample → Bool
  | _, [] => true
  | a, b :: rest => (decide (a.t < b.t)) && chainInc b rest

/-- Spec-side predicate: every segment's floor speed is within `m`. -/
def speedsOk (m : Nat) : Sample → List Sample → Bool
  | _, [] => true
  | a, b :: rest => (decide (segDist a b / (b.t - a.t) ≤ m)) && speedsOk m b rest

/-- Spec-side function: the saturating sum of segment distances. -/
def totD (acc : Nat) : Sample → List Sample → Nat
  | _, [] => acc
  | a, b :: rest => totD (satAdd64 acc (segDist a b)) b rest

/-- Spec-side function: the timestamp of the last sample of the chain. -/
def lastT : Sample → List Sample → Nat
  | a, [] => a.t
  | _, b :: rest => lastT b rest

/-- The list of consecutive sample pairs of the chain (the source's
`windows(2)`). -/
def adjPairs : Sample → List Sample → List (Sample × Sample)
  | _, [] => []
  | a, b :: rest => (a, b) :: adjPairs b rest

/-- All conditions of the accepting path of `main`, spelled out: successful
decode, at least two samples, ordered time window, verified signature,
strictly increasing timestamps, all segment speeds within bound, elapsed
bound, distance threshold. -/
def checksPass (C : Crypto) (decoded : Option RunInput) : Prop :=
  ∃ r g0 rest addr, decoded = some r ∧ r.gps = g0 :: rest ∧
    2 ≤ r.gps.length ∧
    r.start_time ≤ r.end_time ∧
    verify_signature C r.blob r.sig r.pubkey = some addr ∧
    chainInc g0 rest = true ∧
    speedsOk r.max_speed_mps g0 rest = true ∧
    lastT g0 rest - g0.t ≤ r.max_elapsed_sec ∧
    5000 ≤ totD 0 g0 rest

/-- A concrete instantiation of the crypto capabilities used to exercise the
theorems on explicit inputs. -/
def trivialCrypto : Crypto where
  sha256 := fun _ => List.replicate 32 7
  keccak256 := fun _ => List.replicate 32 9
  sigParse := fun _ => true
  keyParse := fun _ => true
  ecdsaVerify := fun _ _ _ => true
  sha256_len := fun _ => List.length_replicate 32 7
  keccak256_len := fun _ => List.length_replicate 32 9

/-- Concrete sample at the origin, `t = 0` (the design document's end-to-end
scenario). -/
def sampleA : Sample := ⟨0, 0, 0⟩

/-- Concrete sample at latitude `0.045°`, `t = 600`. -/
def sampleB : Sample := ⟨600, 45000, 0⟩

/-- A concrete run input accepted by the pipeline (segment distance 5003 m,
speed 8 m/s). -/
def goodRun : RunInput :=
  ⟨[sampleA, sampleB], 0, 1000, 3600, 12, [1, 2, 3],
    List.replicate 65 2, List.replicate 65 4⟩

/-- A concrete run input with a duplicated timestamp. -/
def staleRun : RunInput :=
  ⟨[⟨5, 0, 0⟩, ⟨5, 1000, 0⟩], 0, 1000, 3600, 12, [1, 2, 3],
    List.replicate 65 2, List.replicate 65 4⟩

/-- Floor speed of a consecutive sample pair. -/
def segSpeed (p : Sample × Sample) : Nat := segDist p.1 p.2 / (p.2.t - p.1.t)

theorem wrapDownGo_le (f : Nat) (x : Int) (h : x ≤ pi_q32 + (f : Int) * two_pi_q32) :
    wrapDownGo f x ≤ pi_q32 := by
  induction f generalizing x with
  | zero => simp only [wrapDownGo]; simpa using h
  | succ f ih =>
    rw [wrapDownGo]
    split
    · apply ih
      push_cast at h ⊢
      simp only [pi_q32, two_pi_q32] at *
      omega
    · omega

theorem wrapUpGo_ge (f : Nat) (x : Int)
    (h : -pi_q32 - (f : Int) * two_pi_q32 ≤ x) : -pi_q32 ≤ wrapUpGo f x := by
  induction f generalizing x with
  | zero => simp only [wrapUpGo]; simpa using h
  | succ f ih =>
    rw [wrapUpGo]
    split
    · apply ih
      push_cast at h ⊢
      simp only [pi_q32, two_pi_q32] at *
      omega
    · omega

theorem wrapUpGo_le (f : Nat) (x : Int) (h : x ≤ pi_q32) : wrapUpGo f x ≤ pi_q32 := by
  induction f generalizing x with
  | zero => simpa [wrapUpGo] using h
  | succ f ih =>
    rw [wrapUpGo]
    split
    · apply ih
      simp only [pi_q32, two_pi_q32] at *
      omega
    · exact h

theorem wrapFuel_big (x : Int) : x ≤ pi_q32 + (wrapFuel x : Int) * two_pi_q32 ∧
    -pi_q32 - (wrapFuel x : Int) * two_pi_q32 ≤ x := by
  unfold wrapFuel
  rw [show two_pi_q32.toNat = 26986075409 from rfl]
  simp only [pi_q32, two_pi_q32]
  omega

theorem wrap_pi_q32_bounds (x : Int) :
    -pi_q32 ≤ wrap_pi_q32 x ∧ wrap_pi_q32 x ≤ pi_q32 := by
  simp only [wrap_pi_q32]
  have h1 := wrapDownGo_le (wrapFuel x) x (wrapFuel_big x).1
  set y := wrapDownGo (wrapFuel x) x with hy
  exact ⟨wrapUpGo_ge (wrapFuel y) y (wrapFuel_big y).2, wrapUpGo_le (wrapFuel y) y h1⟩

theorem wrapDownGo_eq_wrapDown (f : Nat) (x : Int)
    (h : x ≤ pi_q32 + (f : Int) * two_pi_q32) : wrapDownGo f x = wrapDown x := by
  induction f generalizing x with
  | zero =>
    rw [wrapDownGo, wrapDown, if_neg]
    simp only [pi_q32, two_pi_q32] at *
    omega
  | succ f ih =>
    rw [wrapDownGo, wrapDown]
    split
    · apply ih
      push_cast at h ⊢
      simp only [pi_q32, two_pi_q32] at *
      omega
    · rfl

theorem wrapUpGo_eq_wrapUp (f : Nat) (x : Int)
    (h : -pi_q32 - (f : Int) * two_pi_q32 ≤ x) : wrapUpGo f x = wrapUp x := by
  induction f generalizing x with
  | zero =>
    rw [wrapUpGo, wrapUp, if_neg]
    simp only [pi_q32, two_pi_q32] at *
    omega
  | succ f ih =>
    rw [wrapUpGo, wrapUp]
    split
    · apply ih
      push_cast at h ⊢
      simp only [pi_q32, two_pi_q32] at *
      omega
    · rfl

/-- The fuelled `wrap_pi_q32` coincides with the source's two `while` loops. -/
theorem wrap_pi_q32_eq_while (x : Int) : wrap_pi_q32 x = wrapUp (wrapDown x) := by
  simp only [wrap_pi_q32]
  rw [wrapDownGo_eq_wrapDown (wrapFuel x) x (wrapFuel_big x).1]
  exact wrapUpGo_eq_wrapUp _ _ (wrapFuel_big (wrapDown x)).2

theorem sqrtLoop_zero_bit (f n r : Nat) : sqrtLoop f 0 n r = r := by
  cases f <;> simp [sqrtLoop]

theorem findBit_spec (j : Nat) : ∀ fuel x, j ≤ fuel → 1 ≤ x → x < 4 ^ (j + 1) →
    ∃ k, k ≤ j ∧ findBit fuel (4 ^ j) x = 4 ^ k ∧ x < 4 ^ (k + 1) := by
  induction j with
  | zero =>
    intro fuel x _ hx hlt
    refine ⟨0, Nat.le_refl 0, ?_, by simpa using hlt⟩
    cases fuel with
    | zero => rfl
    | succ f =>
      rw [pow_zero, findBit, if_neg]
      omega
  | succ j ih =>
    intro fuel x hf hx hlt
    match fuel, hf with
    | f + 1, hf =>
      rw [findBit]
      by_cases hgt : 4 ^ (j + 1) > x
      · rw [if_pos hgt]
        have h4 : (4 : Nat) ^ (j + 1) / 4 = 4 ^ j := by
          rw [pow_succ, Nat.mul_div_cancel _ (by norm_num)]
        rw [h4]
        obtain ⟨k, hk, he, hb⟩ := ih f x (by omega) hx hgt
        exact ⟨k, by omega, he, hb⟩
      · rw [if_neg hgt]
        exact ⟨j + 1, Nat.le_refl _, rfl, hlt⟩

theorem sqrtLoop_correct (k : Nat) : ∀ fuel p n x, k + 1 ≤ fuel →
    x = p * p * 4 ^ (k + 1) + n → x < (p + 1) * (p + 1) * 4 ^ (k + 1) →
    sqrtLoop fuel (4 ^ k) n (p * 4 ^ (k + 1)) *
      sqrtLoop fuel (4 ^ k) n (p * 4 ^ (k + 1)) ≤ x ∧
    x < (sqrtLoop fuel (4 ^ k) n (p * 4 ^ (k + 1)) + 1) *
      (sqrtLoop fuel (4 ^ k) n (p * 4 ^ (k + 1)) + 1) := by
  induction k with
  | zero =>
    intro fuel p n x hf hx hlt
    match fuel, hf with
    | f + 1, _ =>
      rw [pow_zero, pow_one] at *
      rw [sqrtLoop, if_neg (by norm_num)]
      by_cases hge : p * 4 + 1 ≤ n
      · rw [if_pos hge]
        norm_num
        rw [show p * 4 / 2 = 2 * p by omega, sqrtLoop_zero_bit]
        have e1 : (2 * p + 1 + 1) * (2 * p + 1 + 1) = (p + 1) * (p + 1) * 4 := by ring
        have e2 : (2 * p + 1) * (2 * p + 1) = p * p * 4 + p * 4 + 1 := by ring
        constructor
        · rw [e2]; omega
        · rw [e1]; omega
      · rw [if_neg hge]
        norm_num
        rw [show p * 4 / 2 = 2 * p by omega, sqrtLoop_zero_bit]
        have e1 : 2 * p * (2 * p) = p * p * 4 := by ring
        have e2 : (2 * p + 1) * (2 * p + 1) = p * p * 4 + p * 4 + 1 := by ring
        constructor
        · rw [e1]; omega
        · rw [e2]; omega
  | succ k ih =>
    intro fuel p n x hf hx hlt
    match fuel, hf with
    | f + 1, hf =>
      rw [sqrtLoop, if_neg (pow_ne_zero _ (by norm_num))]
      have h4 : (4 : Nat) ^ (k + 1) / 4 = 4 ^ k := by
        rw [pow_succ, Nat.mul_div_cancel _ (by norm_num)]
      by_cases hge : p * 4 ^ (k + 1 + 1) + 4 ^ (k + 1) ≤ n
      · rw [if_pos hge, h4]
        have hr : p * 4 ^ (k + 1 + 1) / 2 + 4 ^ (k + 1) = (2 * p + 1) * 4 ^ (k + 1) := by
          rw [show p * 4 ^ (k + 1 + 1) = 2 * p * 4 ^ (k + 1) * 2 by ring,
            Nat.mul_div_cancel _ (by norm_num)]
          ring
        rw [hr]
        apply ih f (2 * p + 1) (n - (p * 4 ^ (k + 1 + 1) + 4 ^ (k + 1))) x (by omega)
        · have e1 : (2 * p + 1) * (2 * p + 1) * 4 ^ (k + 1) =
              p * p * 4 ^ (k + 1 + 1) + (p * 4 ^ (k + 1 + 1) + 4 ^ (k + 1)) := by ring
          rw [e1]
          omega
        · have e2 : (2 * p + 1 + 1) * (2 * p + 1 + 1) * 4 ^ (k + 1) =
              (p + 1) * (p + 1) * 4 ^ (k + 1 + 1) := by ring
          rw [e2]
          exact hlt
      · rw [if_neg hge, h4]
        have hr : p * 4 ^ (k + 1 + 1) / 2 = 2 * p * 4 ^ (k + 1) := by
          rw [show p * 4 ^ (k + 1 + 1) = 2 * p * 4 ^ (k + 1) * 2 by ring,
            Nat.mul_div_cancel _ (by norm_num)]
        rw [hr]
        apply ih f (2 * p) n x (by omega)
        · have e1 : 2 * p * (2 * p) * 4 ^ (k + 1) = p * p * 4 ^ (k + 1 + 1) := by ring
          rw [e1]
          exact hx
        · have e2 : (2 * p + 1) * (2 * p + 1) * 4 ^ (k + 1) =
              p * p * 4 ^ (k + 1 + 1) + (p * 4 ^ (k + 1 + 1) + 4 ^ (k + 1)) := by ring
          rw [e2]
          omega

theorem isqrtFuel_correct (fuel x : Nat) (hf : 64 ≤ fuel) (hx : x < 2 ^ 128) :
    isqrtFuel fuel x * isqrtFuel fuel x ≤ x ∧
    x < (isqrtFuel fuel x + 1) * (isqrtFuel fuel x + 1) := by
  unfold isqrtFuel
  by_cases h0 : x = 0
  · simp [h0]
  · rw [if_neg h0]
    have h1 : 1 ≤ x := by omega
    have h128 : x < 4 ^ (63 + 1) := by
      have : (4 : Nat) ^ (63 + 1) = 2 ^ 128 := by norm_num
      omega
    rw [show (2 : Nat) ^ 126 = 4 ^ 63 by norm_num]
    obtain ⟨k, hk, he, hb⟩ := findBit_spec 63 fuel x (by omega) h1 h128
    rw [he]
    have := sqrtLoop_correct k fuel 0 x x (by omega) (by simp) (by simpa using hb)
    simpa using this

theorem sqrt_unique {a b x : Nat} (h1 : a * a ≤ x) (h2 : x < (a + 1) * (a + 1))
    (h3 : b * b ≤ x) (h4 : x < (b + 1) * (b + 1)) : a = b := by
  rcases Nat.lt_trichotomy a b with h | h | h
  · have hab : a + 1 ≤ b := h
    have := Nat.mul_le_mul hab hab
    omega
  · exact h
  · have hba : b + 1 ≤ a := h
    have := Nat.mul_le_mul hba hba
    omega

theorem walk_characterize (m : Nat) : ∀ (rest : List Sample) (a : Sample) (acc : Nat),
    walk m a rest acc =
      if chainInc a rest && speedsOk m a rest then some (totD acc a rest, lastT a rest)
      else none := by
  intro rest
  induction rest with
  | nil => intro a acc; simp [walk, chainInc, speedsOk, totD, lastT]
  | cons b rest ih =>
    intro a acc
    by_cases ht : a.t < b.t
    · by_cases hs : segDist a b / (b.t - a.t) ≤ m
      · rw [walk, if_neg (by simpa using ht), if_neg (by omega),
          if_neg (by omega), ih]
        simp [chainInc, speedsOk, totD, lastT, ht, hs]
      · rw [walk, if_neg (by simpa using ht), if_neg (by omega), if_pos (by omega)]
        simp [chainInc, speedsOk, ht, hs]
    · rw [walk, if_pos (by simpa using ht)]
      simp [chainInc, ht]

theorem verify_signature_some {C : Crypto} {blob sig pubkey addr : List Nat}
    (h : verify_signature C blob sig pubkey = some addr) :
    addr = (C.keccak256 (pubkey.drop 1)).drop 12 ∧
    sig.length = 65 ∧ pubkey.length = 65 := by
  simp only [verify_signature] at h
  split_ifs at h with h1 h2 h3 h4 h5
  exact ⟨(Option.some.inj h).symm, by omega, by omega⟩

theorem runMain_accept (C : Crypto) (r : RunInput) (g0 : Sample) (rest : List Sample)
    (addr : List Nat)
    (hg : r.gps = g0 :: rest) (hlen : 2 ≤ r.gps.length)
    (ht : r.start_time ≤ r.end_time)
    (hv : verify_signature C r.blob r.sig r.pubkey = some addr)
    (hchain : chainInc g0 rest = true)
    (hspeed : speedsOk r.max_speed_mps g0 rest = true)
    (helapsed : lastT g0 rest - g0.t ≤ r.max_elapsed_sec)
    (hdist : 5000 ≤ totD 0 g0 rest) :
    runMain C (some r) =
      1 :: (beBytes4 (if lastT g0 rest - g0.t > 4294967295 then 4294967295
              else lastT g0 rest - g0.t) ++ C.sha256 r.blob ++ addr) := by
  have hw : walk r.max_speed_mps g0 rest 0 = some (totD 0 g0 rest, lastT g0 rest) := by
    rw [walk_characterize]
    simp [hchain, hspeed]
  rw [hg] at hlen
  simp only [runMain, hg, hv, hw]
  rw [if_neg (Nat.not_lt.mpr hlen),
    if_neg (by simpa using ht),
    if_neg (show ¬ (lastT g0 rest - g0.t > r.max_elapsed_sec) by omega),
    if_neg (show ¬ (totD 0 g0 rest < 5000) by omega)]

theorem runMain_reject (C : Crypto) (d : Option RunInput) (h : ¬ checksPass C d) :
    runMain C d = [0] := by
  match d with
  | none => rfl
  | some r =>
    match hg : r.gps with
    | [] => simp [runMain, hg]
    | g0 :: rest =>
      by_cases hlen : r.gps.length < 2
      · simp [runMain, hlen]
      · by_cases ht : r.start_time ≤ r.end_time
        · match hv : verify_signature C r.blob r.sig r.pubkey with
          | none => simp [runMain, hlen, ht, hg, hv]
          | some addr =>
            by_cases hc : chainInc g0 rest = true
            · by_cases hs : speedsOk r.max_speed_mps g0 rest = true
              · by_cases he : lastT g0 rest - g0.t ≤ r.max_elapsed_sec
                · by_cases hd : 5000 ≤ totD 0 g0 rest
                  · exact absurd
                      ⟨r, g0, rest, addr, rfl, hg, by omega,
                        ht, hv, hc, hs, he, hd⟩ h
                  · simp [runMain, hlen, ht, hg, hv, walk_characterize, hc, hs]
                    omega
                · simp [runMain, hlen, ht, hg, hv, walk_characterize, hc, hs]
                  intro h'
                  omega
              · simp [runMain, hlen, ht, hg, hv, walk_characterize, hc, hs]
            · simp [runMain, hlen, ht, hg, hv, walk_characterize, hc]
        · simp [runMain, hlen, ht, hg]

theorem checksPass_inv {C : Crypto} {r : RunInput} {g0 : Sample} {rest : List Sample}
    (hg : r.gps = g0 :: rest) (h : checksPass C (some r)) :
    r.start_time ≤ r.end_time ∧
    (∃ addr, verify_signature C r.blob r.sig r.pubkey = some addr) ∧
    chainInc g0 rest = true ∧ speedsOk r.max_speed_mps g0 rest = true ∧
    lastT g0 rest - g0.t ≤ r.max_elapsed_sec ∧ 5000 ≤ totD 0 g0 rest := by
  obtain ⟨r', g0', rest', addr, hd, hg', _, ht, hv, hc, hs, he, hdist⟩ := h
  obtain rfl : r = r' := Option.some.inj hd
  rw [hg] at hg'
  obtain ⟨rfl, rfl⟩ : g0 = g0' ∧ rest = rest' := by
    constructor <;> injection hg'
  exact ⟨ht, ⟨addr, hv⟩, hc, hs, he, hdist⟩

theorem chainInc_iff (rest : List Sample) : ∀ a,
    chainInc a rest = true ↔ ∀ p ∈ adjPairs a rest, p.1.t < p.2.t := by
  induction rest with
  | nil => intro a; simp [chainInc, adjPairs]
  | cons b rest ih => intro a; simp [chainInc, adjPairs, ih]

theorem speedsOk_iff (m : Nat) (rest : List Sample) : ∀ a,
    speedsOk m a rest = true ↔ ∀ p ∈ adjPairs a rest, segSpeed p ≤ m := by
  induction rest with
  | nil => intro a; simp [speedsOk, adjPairs]
  | cons b rest ih => intro a; simp [speedsOk, adjPairs, ih, segSpeed]

theorem q32_mul_neg_neg (a b : Int) : q32_mul (-a) (-b) = q32_mul a b := by
  simp [q32_mul]

theorem q32_mul_neg_left (a b : Int) : q32_mul (-a) b = -(q32_mul a b) := by
  simp [q32_mul, Int.neg_tdiv]

/-- C1: on the accepting path (successful decode, at least two samples, ordered
time window, verified signature, strictly increasing timestamps, all segment
speeds within `max_speed_mps`, elapsed within `max_elapsed_sec`, total distance
at least 5000 m) the committed journal is exactly 57 bytes: byte `0x01`, then
the elapsed seconds (last sample's `t` minus first sample's `t`) as a
big-endian `u32` saturated at `u32::MAX`, then the 32-byte SHA-256 of `blob`,
then the 20-byte signer address equal to the last 20 bytes of Keccak-256 of
`pubkey` without its leading `0x04` byte. -/
theorem spec_accept_journal (C : Crypto) (r : RunInput) (g0 : Sample)
    (rest : List Sample) (addr : List Nat)
    (hg : r.gps = g0 :: rest) (hlen : 2 ≤ r.gps.length)
    (ht : r.start_time ≤ r.end_time)
    (hv : verify_signature C r.blob r.sig r.pubkey = some addr)
    (hchain : chainInc g0 rest = true)
    (hspeed : speedsOk r.max_speed_mps g0 rest = true)
    (helapsed : lastT g0 rest - g0.t ≤ r.max_elapsed_sec)
    (hdist : 5000 ≤ totD 0 g0 rest) :
    runMain C (some r) =
      1 :: (beBytes4 (if lastT g0 rest - g0.t > 4294967295 then 4294967295
              else lastT g0 rest - g0.t) ++ C.sha256 r.blob ++
            (C.keccak256 (r.pubkey.drop 1)).drop 12) ∧
    (runMain C (some r)).length = 57 := by
  obtain ⟨ha, -, -⟩ := verify_signature_some hv
  have hmain := runMain_accept C r g0 rest addr hg hlen ht hv hchain hspeed
    helapsed hdist
  subst ha
  refine ⟨hmain, ?_⟩
  rw [hmain]
  simp [beBytes4, C.sha256_len, C.keccak256_len]

set_option maxRecDepth 100000 in
theorem spec_accept_journal_witness :
    (goodRun.gps = sampleA :: [sampleB] ∧ 2 ≤ goodRun.gps.length ∧
      goodRun.start_time ≤ goodRun.end_time ∧
      verify_signature trivialCrypto goodRun.blob goodRun.sig goodRun.pubkey =
        some (List.replicate 20 9) ∧
      chainInc sampleA [sampleB] = true ∧
      speedsOk goodRun.max_speed_mps sampleA [sampleB] = true ∧
      lastT sampleA [sampleB] - sampleA.t ≤ goodRun.max_elapsed_sec ∧
      5000 ≤ totD 0 sampleA [sampleB]) ∧
    (runMain trivialCrypto (some goodRun) =
      1 :: (beBytes4 (if lastT sampleA [sampleB] - sampleA.t > 4294967295
              then 4294967295 else lastT sampleA [sampleB] - sampleA.t) ++
            trivialCrypto.sha256 goodRun.blob ++
            (trivialCrypto.keccak256 (goodRun.pubkey.drop 1)).drop 12) ∧
    (runMain trivialCrypto (some goodRun)).length = 57) :=
  ⟨⟨by decide, by decide, by decide, by decide, by decide, by decide, by decide,
      by decide⟩,
    spec_accept_journal trivialCrypto goodRun sampleA [sampleB]
      (List.replicate 20 9) (by decide) (by decide) (by decide) (by decide)
      (by decide) (by decide) (by decide) (by decide)⟩

/-- C2: whenever any check of the pipeline fails (decode failure, fewer than
two samples, inverted time window, signature/verification failure of any kind,
non-monotonic timestamps, speed violation, elapsed violation, or distance
below threshold), the committed output is exactly the single byte `0x00` —
one byte long, identical for every failure cause. -/
theorem spec_uniform_rejection (C : Crypto) (decode : List Nat → Option RunInput)
    (input : List Nat) (h : ¬ checksPass C (decode input)) :
    pipeline C decode input = [0] ∧ (pipeline C decode input).length = 1 := by
  have hr := runMain_reject C (decode input) h
  exact ⟨hr, by simp [pipeline, hr]⟩

theorem spec_uniform_rejection_witness :
    (¬ checksPass trivialCrypto ((fun _ => (none : Option RunInput)) [37])) ∧
    (pipeline trivialCrypto (fun _ => none) [37] = [0] ∧
      (pipeline trivialCrypto (fun _ => none) [37]).length = 1) :=
  ⟨by simp [checksPass],
    spec_uniform_rejection trivialCrypto (fun _ => none) [37] (by simp [checksPass])⟩

/-- C3: in an otherwise-valid run input, segments whose floor speed equals
`max_speed_mps` do not cause rejection (the run is accepted when every segment
speed is within the bound), while any segment whose floor speed is
`max_speed_mps + 1` or larger forces the single-byte `0x00` journal. -/
theorem spec_speed_boundary (C : Crypto) (r : RunInput) (g0 : Sample)
    (rest : List Sample) (addr : List Nat)
    (hg : r.gps = g0 :: rest) (hlen : 2 ≤ r.gps.length)
    (ht : r.start_time ≤ r.end_time)
    (hv : verify_signature C r.blob r.sig r.pubkey = some addr)
    (hchain : chainInc g0 rest = true)
    (helapsed : lastT g0 rest - g0.t ≤ r.max_elapsed_sec)
    (hdist : 5000 ≤ totD 0 g0 rest) :
    ((∀ p ∈ adjPairs g0 rest, segSpeed p ≤ r.max_speed_mps) →
      runMain C (some r) =
        1 :: (beBytes4 (if lastT g0 rest - g0.t > 4294967295 then 4294967295
                else lastT g0 rest - g0.t) ++ C.sha256 r.blob ++ addr)) ∧
    ((∃ p ∈ adjPairs g0 rest, r.max_speed_mps + 1 ≤ segSpeed p) →
      runMain C (some r) = [0]) := by
  constructor
  · intro hall
    exact runMain_accept C r g0 rest addr hg hlen ht hv hchain
      ((speedsOk_iff _ _ _).mpr hall) helapsed hdist
  · rintro ⟨p, hp, hps⟩
    apply runMain_reject
    intro hcp
    obtain ⟨-, -, -, hs, -, -⟩ := checksPass_inv hg hcp
    have := (speedsOk_iff _ _ _).mp hs p hp
    omega

set_option maxRecDepth 100000 in
theorem spec_speed_boundary_witness :
    (goodRun.gps = sampleA :: [sampleB] ∧ 2 ≤ goodRun.gps.length ∧
      goodRun.start_time ≤ goodRun.end_time ∧
      verify_signature trivialCrypto goodRun.blob goodRun.sig goodRun.pubkey =
        some (List.replicate 20 9) ∧
      chainInc sampleA [sampleB] = true ∧
      lastT sampleA [sampleB] - sampleA.t ≤ goodRun.max_elapsed_sec ∧
      5000 ≤ totD 0 sampleA [sampleB]) ∧
    (((∀ p ∈ adjPairs sampleA [sampleB], segSpeed p ≤ goodRun.max_speed_mps) →
      runMain trivialCrypto (some goodRun) =
        1 :: (beBytes4 (if lastT sampleA [sampleB] - sampleA.t > 4294967295
                then 4294967295 else lastT sampleA [sampleB] - sampleA.t) ++
              trivialCrypto.sha256 goodRun.blob ++ List.replicate 20 9)) ∧
    ((∃ p ∈ adjPairs sampleA [sampleB],
        goodRun.max_speed_mps + 1 ≤ segSpeed p) →
      runMain trivialCrypto (some goodRun) = [0])) :=
  ⟨⟨by decide, by decide, by decide, by decide, by decide, by decide, by decide⟩,
    spec_speed_boundary trivialCrypto goodRun sampleA [sampleB]
      (List.replicate 20 9) (by decide) (by decide) (by decide) (by decide)
      (by decide) (by decide) (by decide)⟩

/-- C4: with every other check satisfied, a total accumulated (saturating)
distance of exactly 4999 m is rejected, and a total of 5000 m or more is
accepted: acceptance requires `total_distance_m >= 5000` with 5000 a fixed
constant. -/
theorem spec_distance_boundary (C : Crypto) (r : RunInput) (g0 : Sample)
    (rest : List Sample) (addr : List Nat)
    (hg : r.gps = g0 :: rest) (hlen : 2 ≤ r.gps.length)
    (ht : r.start_time ≤ r.end_time)
    (hv : verify_signature C r.blob r.sig r.pubkey = some addr)
    (hchain : chainInc g0 rest = true)
    (hspeed : speedsOk r.max_speed_mps g0 rest = true)
    (helapsed : lastT g0 rest - g0.t ≤ r.max_elapsed_sec) :
    (totD 0 g0 rest = 4999 → runMain C (some r) = [0]) ∧
    (5000 ≤ totD 0 g0 rest →
      runMain C (some r) =
        1 :: (beBytes4 (if lastT g0 rest - g0.t > 4294967295 then 4294967295
                else lastT g0 rest - g0.t) ++ C.sha256 r.blob ++ addr)) := by
  constructor
  · intro h4999
    apply runMain_reject
    intro hcp
    obtain ⟨-, -, -, -, -, hdist⟩ := checksPass_inv hg hcp
    omega
  · intro hdist
    exact runMain_accept C r g0 rest addr hg hlen ht hv hchain hspeed
      helapsed hdist

set_option maxRecDepth 100000 in
theorem spec_distance_boundary_witness :
    (goodRun.gps = sampleA :: [sampleB] ∧ 2 ≤ goodRun.gps.length ∧
      goodRun.start_time ≤ goodRun.end_time ∧
      verify_signature trivialCrypto goodRun.blob goodRun.sig goodRun.pubkey =
        some (List.replicate 20 9) ∧
      chainInc sampleA [sampleB] = true ∧
      speedsOk goodRun.max_speed_mps sampleA [sampleB] = true ∧
      lastT sampleA [sampleB] - sampleA.t ≤ goodRun.max_elapsed_sec) ∧
    ((totD 0 sampleA [sampleB] = 4999 →
        runMain trivialCrypto (some goodRun) = [0]) ∧
    (5000 ≤ totD 0 sampleA [sampleB] →
      runMain trivialCrypto (some goodRun) =
        1 :: (beBytes4 (if lastT sampleA [sampleB] - sampleA.t > 4294967295
                then 4294967295 else lastT sampleA [sampleB] - sampleA.t) ++
              trivialCrypto.sha256 goodRun.blob ++ List.replicate 20 9))) :=
  ⟨⟨by decide, by decide, by decide, by decide, by decide, by decide, by decide⟩,
    spec_distance_boundary trivialCrypto goodRun sampleA [sampleB]
      (List.replicate 20 9) (by decide) (by decide) (by decide) (by decide)
      (by decide) (by decide) (by decide)⟩

/-- C5: any decoded run input containing a consecutive sample pair with a
non-increasing timestamp (`b.t ≤ a.t`) is rejected with the single-byte `0x00`
journal, regardless of every other field. -/
theorem spec_time_order (C : Crypto) (r : RunInput) (g0 : Sample)
    (rest : List Sample) (hg : r.gps = g0 :: rest)
    (hbad : ∃ p ∈ adjPairs g0 rest, p.2.t ≤ p.1.t) :
    runMain C (some r) = [0] := by
  apply runMain_reject
  intro hcp
  obtain ⟨-, -, hc, -, -, -⟩ := checksPass_inv hg hcp
  obtain ⟨p, hp, hle⟩ := hbad
  have := (chainInc_iff _ _).mp hc p hp
  omega

theorem spec_time_order_witness :
    (staleRun.gps = (⟨5, 0, 0⟩ : Sample) :: [⟨5, 1000, 0⟩] ∧
      (∃ p ∈ adjPairs (⟨5, 0, 0⟩ : Sample) [⟨5, 1000, 0⟩], p.2.t ≤ p.1.t)) ∧
    runMain trivialCrypto (some staleRun) = [0] :=
  ⟨⟨by decide, by decide⟩,
    spec_time_order trivialCrypto staleRun ⟨5, 0, 0⟩ [⟨5, 1000, 0⟩]
      (by decide) (by decide)⟩

/-- C6: the pipeline is a deterministic function of the input byte buffer:
two invocations on equal input buffers commit byte-identical outputs, with no
dependence on anything outside the input (the embedding is a pure function of
`input` alone). -/
theorem spec_determinism (C : Crypto) (decode : List Nat → Option RunInput)
    (i1 i2 : List Nat) (h : i1 = i2) :
    pipeline C decode i1 = pipeline C decode i2 := by
  rw [h]

theorem spec_determinism_witness :
    ([3, 1, 4] = [3, 1, 4] : Prop) ∧
    pipeline trivialCrypto (fun _ => none) [3, 1, 4] =
      pipeline trivialCrypto (fun _ => none) [3, 1, 4] :=
  ⟨rfl, spec_determinism trivialCrypto (fun _ => none) [3, 1, 4] [3, 1, 4] rfl⟩

/-- C7: `isqrt_u128` returns the exact integer square root of every `u128`
value (`r*r ≤ x < (r+1)*(r+1)`), and its two loops stabilise within a number
of steps bounded by the operand's 128-bit width: any fuel of at least 128
steps per loop yields the same result. -/
theorem spec_isqrt_exact (x : Nat) (hx : x < 2 ^ 128) :
    isqrt_u128 x * isqrt_u128 x ≤ x ∧
    x < (isqrt_u128 x + 1) * (isqrt_u128 x + 1) ∧
    ∀ fuel, 128 ≤ fuel → isqrtFuel fuel x = isqrt_u128 x := by
  obtain ⟨h1, h2⟩ := isqrtFuel_correct 128 x (by norm_num) hx
  refine ⟨h1, h2, ?_⟩
  intro fuel hf
  obtain ⟨h3, h4⟩ := isqrtFuel_correct fuel x (by omega) hx
  exact sqrt_unique h3 h4 h1 h2

theorem spec_isqrt_exact_witness :
    123456789 < 2 ^ 128 ∧
    (isqrt_u128 123456789 * isqrt_u128 123456789 ≤ 123456789 ∧
      123456789 < (isqrt_u128 123456789 + 1) * (isqrt_u128 123456789 + 1) ∧
      ∀ fuel, 128 ≤ fuel → isqrtFuel fuel 123456789 = isqrt_u128 123456789) :=
  ⟨by norm_num, spec_isqrt_exact 123456789 (by norm_num)⟩

/-- C8: for every `i128` input, `wrap_pi_q32` terminates (the source's two
`while` loops agree with the fuelled total function, each step moving the
argument by 2π toward the target range) and its result lies in the Q32.32
interval `[-π, π]`. -/
theorem spec_wrap_terminates_in_range (x : Int) (hlo : -(2 ^ 127) ≤ x)
    (hhi : x < 2 ^ 127) :
    wrap_pi_q32 x = wrapUp (wrapDown x) ∧
    -pi_q32 ≤ wrap_pi_q32 x ∧ wrap_pi_q32 x ≤ pi_q32 :=
  ⟨wrap_pi_q32_eq_while x, (wrap_pi_q32_bounds x).1, (wrap_pi_q32_bounds x).2⟩

set_option maxRecDepth 10000 in
theorem spec_wrap_terminates_in_range_witness :
    (-(2 ^ 127) ≤ (40479113113 : Int) ∧ (40479113113 : Int) < 2 ^ 127) ∧
    (wrap_pi_q32 40479113113 = wrapUp (wrapDown 40479113113) ∧
      -pi_q32 ≤ wrap_pi_q32 40479113113 ∧ wrap_pi_q32 40479113113 ≤ pi_q32) :=
  ⟨⟨by decide, by decide⟩,
    spec_wrap_terminates_in_range 40479113113 (by decide) (by decide)⟩

/-- C9: `start_time` and `end_time` influence the outcome only through the
single check `start_time ≤ end_time`: two inputs differing only in these two
fields, both with an ordered window, commit identical outputs. -/
theorem spec_time_window_flat (C : Crypto) (r : RunInput)
    (st1 et1 st2 et2 : Nat) (h1 : st1 ≤ et1) (h2 : st2 ≤ et2) :
    runMain C (some { r with start_time := st1, end_time := et1 }) =
    runMain C (some { r with start_time := st2, end_time := et2 }) := by
  simp [runMain, h1, h2]

theorem spec_time_window_flat_witness :
    ((0 : Nat) ≤ 5 ∧ (3 : Nat) ≤ 3) ∧
    runMain trivialCrypto
        (some { goodRun with start_time := 0, end_time := 5 }) =
      runMain trivialCrypto
        (some { goodRun with start_time := 3, end_time := 3 }) :=
  ⟨⟨by decide, by decide⟩,
    spec_time_window_flat trivialCrypto goodRun 0 5 3 3 (by decide) (by decide)⟩

/-- C10: `distance_segment_meters` is symmetric in its two endpoints: the
deltas are squared and the average latitude is unchanged by swapping. -/
theorem spec_distance_symmetric (lat1 lon1 lat2 lon2 : Int) :
    distance_segment_meters lat1 lon1 lat2 lon2 =
    distance_segment_meters lat2 lon2 lat1 lon1 := by
  simp only [distance_segment_meters]
  generalize deg_to_rad_q32 lat1 = a
  generalize deg_to_rad_q32 lat2 = b
  generalize deg_to_rad_q32 lon1 = u
  generalize deg_to_rad_q32 lon2 = v
  rw [add_comm b a,
    show u - v = -(v - u) by ring, show a - b = -(b - a) by ring,
    q32_mul_neg_left, q32_mul_neg_neg, q32_mul_neg_neg]

end ZKRun
